import Mathlib

/-!
Verification development for the tsume (checkmate-puzzle) generator of the
wildcat-shogi repository (`src/tools/tsume-generator/src/main.rs`).

The tool drives an external engine process; all engine and rules-library
interactions are modelled as oracle parameters (functions supplied to the
embedded definitions), while every piece of control logic of the source file
is embedded directly.  Rust `u32` arithmetic is modelled as `Nat` with an
explicit wrap modulo `2 ^ 32` (release-mode semantics); byte slicing of the
ASCII move tokens is modelled as character-list slicing.
-/

set_option maxHeartbeats 1000000

namespace TsumeGen

/-- `MAX_MOVES` constant of the source. -/
def MAX_MOVES : Nat := 300

/-- `SEARCH_TIME_MS` constant of the source. -/
def SEARCH_TIME_MS : Nat := 10

/-- `MAX_ATTEMPTS` constant of the source. -/
def MAX_ATTEMPTS : Nat := 10

/-- Rust `str::find` for a pattern, over character lists: index of the first
position at which `pat` occurs in the haystack, if any. -/
def find_sub (pat : List Char) : List Char → Option Nat
  | [] => if pat.isPrefixOf ([] : List Char) then some 0 else none
  | c :: tl =>
    if pat.isPrefixOf (c :: tl) then some 0
    else (find_sub pat tl).map (· + 1)

/-- Embeds `position_only_sfen`: everything before the first occurrence of
`" moves"`, or the string unchanged when there is none. -/
def position_only_sfen (sfen : String) : String :=
  match find_sub " moves".data sfen.data with
  | some idx => ⟨sfen.data.take idx⟩
  | none => sfen

/-- Rust `char::to_digit(10)`. -/
def to_digit (c : Char) : Option Nat :=
  if 48 ≤ c.toNat ∧ c.toNat ≤ 57 then some (c.toNat - 48) else none

/-- Rust `u32` subtraction `a - b`, wrapping modulo `2 ^ 32` as in release
builds (the source computes `4 - digit` on `u32`). -/
def u32_sub (a b : Nat) : Nat := (a + 2 ^ 32 - b % 2 ^ 32) % 2 ^ 32

/-- Embeds `convert_move_files`: translate the file digits of a move token
between the engine's and the rules library's coordinate conventions via
`new_file = 4 - old_file`.  Drop tokens (`piece '*' file rank`) translate the
destination file; from/to tokens translate both files and keep the promotion
suffix; anything else is returned unchanged. -/
def convert_move_files (sfen : String) : String :=
  match sfen.data with
  | c0 :: c1 :: c2 :: c3 :: rest =>
    if c1 = '*' then
      match to_digit c2 with
      | some d => ⟨c0 :: '*' :: (Nat.repr (u32_sub 4 d)).data ++ [c3]⟩
      | none => sfen
    else
      match to_digit c0, to_digit c2 with
      | some ff, some tf =>
        ⟨(Nat.repr (u32_sub 4 ff)).data ++ c1 :: (Nat.repr (u32_sub 4 tf)).data ++ c3 :: rest⟩
      | _, _ => sfen
  | _ => sfen

/-- Core of Rust `str::split_whitespace`, with an accumulator holding the
current word reversed. -/
def splitWsCore : List Char → List Char → List String
  | [], acc => if acc = [] then [] else [⟨acc.reverse⟩]
  | c :: cs, acc =>
    if c.isWhitespace then
      (if acc = [] then [] else [⟨acc.reverse⟩]) ++ splitWsCore cs []
    else
      splitWsCore cs (c :: acc)

/-- Rust `str::split_whitespace().collect()`: maximal whitespace-free words. -/
def split_whitespace (s : String) : List String := splitWsCore s.data []

/-- Embeds the post-mirror normalization used at both terminal sites of
`simulate_game`: when the mirrored SFEN has at least four
whitespace-separated fields, keep the first three and reset the move counter
to `1` (Rust `format!` with the first three parts); otherwise return the
string unchanged. -/
def reset_move_counter (s : String) : String :=
  match split_whitespace s with
  | p0 :: p1 :: p2 :: _ :: _ => p0 ++ " " ++ p1 ++ " " ++ p2 ++ " 1"
  | _ => s

/-- ASCII case swap (colour swap of an SFEN piece letter). -/
def swap_case (c : Char) : Char :=
  if 97 ≤ c.toNat ∧ c.toNat ≤ 122 then Char.ofNat (c.toNat - 32)
  else if 65 ≤ c.toNat ∧ c.toNat ≤ 90 then Char.ofNat (c.toNat + 32)
  else c

/-- 180-degree flip of an SFEN board field with colours swapped: reverse the
rank string and swap the case of every piece letter. -/
def mirror_board (board : String) : String := ⟨(board.data.reverse).map swap_case⟩

/-- Swap of the SFEN side-to-move field. -/
def flip_side (side : String) : String :=
  if side = "b" then "w" else if side = "w" then "b" else side

/-- Join SFEN fields with single spaces. -/
def join_fields : List String → String
  | [] => ""
  | [x] => x
  | x :: y :: rest => x ++ " " ++ join_fields (y :: rest)

/-- Modelled from the spec: `mirror_sfen` lives in the external `shogi`
library of this repository (not under `src/`).  Per the spec and the source's
comments, mirroring flips the board and swaps the side to move so that the
position is seen from the other colour (the repository's own tests expect a
white-to-move SFEN to become black-to-move after mirroring).  Fields beyond
board and side to move are kept. -/
def mirror_sfen (s : String) : String :=
  match split_whitespace s with
  | board :: side :: rest => join_fields (mirror_board board :: flip_side side :: rest)
  | _ => s

/-- Modelled from the spec: `STARTING_SFEN` is a constant of the external
`shogi::wildcatshogi` library (not under `src/`).  The spec describes the
simulator's initial state as the standard starting position of the variant;
the concrete board below is the symmetric initial setup appearing in the
repository's tests.  Only its being a nonempty well-formed SFEN matters to
the claims. -/
def STARTING_SFEN : String := "bkr/p1p/3/P1P/RKB b - 1"

/-- Embeds the `SearchResult` enum: the outcome of one engine search. -/
inductive SearchResult where
  | Move (mv : String)
  | Checkmate
  | Resign
deriving Repr, DecidableEq

/-- Embeds the `PvInfo` struct: one engine-reported candidate line. -/
structure PvInfo where
  multipv : Int
  score : Int
  moves : List String
deriving Repr, DecidableEq

/-- The `usi::ScoreKind` variants matched by the source. -/
inductive ScoreKind where
  | CpExact
  | CpLowerbound
  | CpUpperbound
  | MateExact
  | MateSignOnly
  | MateLowerbound
  | MateUpperbound
deriving Repr, DecidableEq

/-- The `usi::InfoParams` variants the source inspects; every other variant is
collapsed into `Other` (ignored by the loop). -/
inductive InfoParams where
  | MultiPv (pv : Int)
  | Score (score : Int) (kind : ScoreKind)
  | Pv (moves : List String)
  | Other
deriving Repr, DecidableEq

/-- The `usi::BestMoveParams` variants (ponder move dropped by the source). -/
inductive BestMoveParams where
  | MakeMove (mv : String) (ponder : Option String)
  | Resign
  | Win
deriving Repr, DecidableEq

/-- The `usi::EngineCommand` responses the source inspects; every other
response is collapsed into `Other` (ignored by the loop). -/
inductive EngineCommand where
  | Info (params : List InfoParams)
  | BestMove (bm : BestMoveParams)
  | Other
deriving Repr, DecidableEq

/-- The score normalization performed inside `search_with_time` when an
`InfoParams::Score` arrives: centipawn kinds are stored raw, mate-distance
kinds become the sentinel `10000` when positive and `-10000` otherwise. -/
def normalize_score (score : Int) (kind : ScoreKind) : Int :=
  match kind with
  | ScoreKind.CpExact | ScoreKind.CpLowerbound | ScoreKind.CpUpperbound => score
  | ScoreKind.MateExact | ScoreKind.MateSignOnly
  | ScoreKind.MateLowerbound | ScoreKind.MateUpperbound =>
    if score > 0 then 10000 else -10000

/-- One step of the `for param in params` loop of `search_with_time`,
updating the accumulator `(current_multipv, current_score, current_moves)`. -/
def apply_info_param : Int × Int × List String → InfoParams → Int × Int × List String
  | (_, sc, mvs), InfoParams.MultiPv pv => (pv, sc, mvs)
  | (mpv, _, mvs), InfoParams.Score s k => (mpv, normalize_score s k, mvs)
  | (mpv, sc, _), InfoParams.Pv ms => (mpv, sc, ms)
  | st, InfoParams.Other => st

/-- The store step of `search_with_time`: overwrite the score and moves of the
first candidate whose rank equals `current_multipv`, or push a new candidate
at the end when no candidate has that rank. -/
def store_pv (mpv sc : Int) (mvs : List String) : List PvInfo → List PvInfo
  | [] => [⟨mpv, sc, mvs⟩]
  | p :: rest =>
    if p.multipv = mpv then ⟨mpv, sc, mvs⟩ :: rest
    else p :: store_pv mpv sc mvs rest

/-- The receive loop of `search_with_time` over the sequence of engine
responses: `Info` batches update the accumulator and store a candidate when
the accumulated move list is nonempty; the terminal `BestMove` response
returns the collected candidates and the mapped outcome; running out of
responses models the 30-second receive timeout (`None`). -/
def search_loop :
    List EngineCommand → List PvInfo → Int → Int → List String →
    Option (List PvInfo × SearchResult)
  | [], _, _, _, _ => none
  | e :: rest, pv_infos, mpv, sc, mvs =>
    match e with
    | EngineCommand.Info params =>
      match params.foldl apply_info_param (mpv, sc, mvs) with
      | (mpv', sc', mvs') =>
        search_loop rest
          (if mvs' = [] then pv_infos else store_pv mpv' sc' mvs' pv_infos)
          mpv' sc' mvs'
    | EngineCommand.BestMove bm =>
      some (pv_infos,
        match bm with
        | BestMoveParams.MakeMove mv _ => SearchResult.Move mv
        | BestMoveParams.Resign => SearchResult.Resign
        | BestMoveParams.Win => SearchResult.Checkmate)
    | EngineCommand.Other => search_loop rest pv_infos mpv sc mvs

/-- Embeds `Engine::search_with_time`: the loop starts with no candidates,
`current_multipv = 1`, `current_score = 0` and an empty accumulated move
list.  The engine's responses to the `go` command are supplied as a list. -/
def search_with_time (events : List EngineCommand) : Option (List PvInfo × SearchResult) :=
  search_loop events [] 1 0 []

/-- `matches!(result, SearchResult::Resign)`. -/
def is_resign : SearchResult → Bool
  | SearchResult.Resign => true
  | _ => false

/-- The common fallback of `get_best_move` and `get_worst_move` on the
terminal outcome when no usable candidate exists: a move passes through,
checkmate passes through, resignation yields no move. -/
def fallback_move : SearchResult → Option SearchResult
  | SearchResult.Move best_move => some (SearchResult.Move best_move)
  | SearchResult.Checkmate => some SearchResult.Checkmate
  | SearchResult.Resign => none

/-- Embeds `Engine::search`.  The engine is modelled as a function `env` from
the requested time budget to the response stream of that invocation: the
first search runs at `SEARCH_TIME_MS`; if it terminates in resignation with
no collected candidates, a single retry runs at `SEARCH_TIME_MS * 5` and its
result is returned; otherwise the first result is returned unchanged. -/
def search (env : Nat → List EngineCommand) : Option (List PvInfo × SearchResult) :=
  match search_with_time (env SEARCH_TIME_MS) with
  | none => none
  | some (pv_infos, result) =>
    if is_resign result && pv_infos.isEmpty then
      search_with_time (env (SEARCH_TIME_MS * 5))
    else some (pv_infos, result)

/-- Embeds `Engine::get_best_move`: prefer the first move of the first
candidate with rank 1; otherwise fall back on the terminal outcome (a move
passes through, checkmate passes through, resignation yields no move). -/
def get_best_move (env : Nat → List EngineCommand) : Option SearchResult :=
  match search env with
  | none => none
  | some (pv_infos, result) =>
    match (pv_infos.find? (fun pv => pv.multipv == 1)).bind (fun pv1 => pv1.moves.head?) with
    | some mv => some (SearchResult.Move mv)
    | none =>
      match result with
      | SearchResult.Move best_move => some (SearchResult.Move best_move)
      | SearchResult.Checkmate => some SearchResult.Checkmate
      | SearchResult.Resign => none

/-- One comparison step of Rust `Iterator::min_by_key` on the score: a later
element replaces the accumulator only when strictly smaller, so the first
element attaining the minimum wins. -/
def min_step (acc : Option PvInfo) (pv : PvInfo) : Option PvInfo :=
  match acc with
  | none => some pv
  | some m => if pv.score < m.score then some pv else some m

/-- Rust `Iterator::min_by_key` on the score: the first element attaining the
minimum score. -/
def min_by_score (l : List PvInfo) : Option PvInfo :=
  l.foldl min_step none

/-- Embeds `Engine::get_worst_move`: among the candidates with at least one
move, pick the first one attaining the minimum score and return its first
move; otherwise the same fallback as `get_best_move`. -/
def get_worst_move (env : Nat → List EngineCommand) : Option SearchResult :=
  match search env with
  | none => none
  | some (pv_infos, result) =>
    match (min_by_score (pv_infos.filter (fun pv => !pv.moves.isEmpty))).bind
        (fun pv => pv.moves.head?) with
    | some mv => some (SearchResult.Move mv)
    | none =>
      match result with
      | SearchResult.Move best_move => some (SearchResult.Move best_move)
      | SearchResult.Checkmate => some SearchResult.Checkmate
      | SearchResult.Resign => none

/-- Embeds the `GameResult` enum of the source. -/
inductive GameResult where
  | Checkmate (sfen : String)
  | NoResult
  | Error
deriving Repr, DecidableEq

/-- Oracle bundle for `simulate_game`.  The spec declares the engine and the
shogi rules library out of scope ("treated as an oracle"), so their stateful
behaviour is modelled as functions of the only state the source feeds them:
the move history accumulated so far.  `Mv` is the rules library's opaque move
type (`shogi::wildcatshogi::Move`). -/
structure SimOracle (Mv : Type) where
  to_sfen : List String → String
  set_position : List String → Bool
  best : List String → Option SearchResult
  worst : List String → Option SearchResult
  from_sfen : String → Option Mv
  make_move : List String → Mv → Bool

/-- Embeds the turn loop of `simulate_game` (fuel counts the remaining
iterations of `for _move_num in 0..MAX_MOVES`).  `none` models the
`unreachable!` panic on a `Resign` selector result (the selectors never
produce it). -/
def simulate_game_go {Mv : Type} (o : SimOracle Mv) :
    Nat → List String → Bool → String → Option GameResult
  | 0, _, _, _ => some GameResult.NoResult
  | fuel + 1, move_history, is_black_turn, sfen_before_last_move =>
    let current_sfen := position_only_sfen (o.to_sfen move_history)
    if o.set_position move_history then
      match (if is_black_turn then o.best move_history else o.worst move_history) with
      | none =>
        some (GameResult.Checkmate
          (if is_black_turn then reset_move_counter (mirror_sfen sfen_before_last_move)
           else sfen_before_last_move))
      | some (SearchResult.Move chosen_move) =>
        match o.from_sfen (convert_move_files chosen_move) with
        | none => some GameResult.Error
        | some mv =>
          if o.make_move move_history mv then
            simulate_game_go o fuel (move_history ++ [chosen_move]) (!is_black_turn) current_sfen
          else some GameResult.Error
      | some SearchResult.Checkmate =>
        some (GameResult.Checkmate
          (if !is_black_turn then reset_move_counter (mirror_sfen sfen_before_last_move)
           else sfen_before_last_move))
      | some SearchResult.Resign => none
    else some GameResult.Error

/-- Embeds `simulate_game`: start from the empty move history, Black to move,
with `sfen_before_last_move` initialized to the empty string. -/
def simulate_game {Mv : Type} (o : SimOracle Mv) : Option GameResult :=
  simulate_game_go o MAX_MOVES [] true ""

/-- The `for _attempt in 1..=MAX_ATTEMPTS` loop of `generate_tsume` over the
remaining attempt indices: the first attempt whose simulation ends in
checkmate yields its position, `NoResult` and `Error` are discarded. -/
def generate_tsume_go (sim : Nat → GameResult) : List Nat → Option String
  | [] => none
  | a :: rest =>
    match sim a with
    | GameResult.Checkmate sfen => some sfen
    | GameResult.NoResult => generate_tsume_go sim rest
    | GameResult.Error => generate_tsume_go sim rest

/-- Embeds `generate_tsume`; the outcome of each simulation attempt is
supplied by the oracle `sim` (indexed by attempt number `1..=MAX_ATTEMPTS`). -/
def generate_tsume (sim : Nat → GameResult) : Option String :=
  generate_tsume_go sim (List.range' 1 MAX_ATTEMPTS)

/-- Embeds the generation loop of `main` (`while count < target_count`).
Each call of `generate_tsume` is modelled by the next entry of `script`;
`some sfen` appends a line to the output and increments the count, `None`
does nothing.  The function returns the written lines once the count reaches
the target, and `none` when the script is exhausted while the loop is still
running (the run has not completed). -/
def main_loop (target : Nat) (script : List (Option String)) (count : Nat)
    (written : List String) : Option (List String) :=
  if count < target then
    match script with
    | [] => none
    | r :: rest =>
      match r with
      | some sfen => main_loop target rest (count + 1) (written ++ [sfen])
      | none => main_loop target rest count written
  else
    some written

/-- A well-formed SFEN field: nonempty and whitespace-free. -/
def good_field (x : String) : Prop := x.data ≠ [] ∧ ∀ c ∈ x.data, c.isWhitespace = false

/-- Concrete oracle on which White (the defender, playing Worst) delivers the
mate through the explicit win signal on the second turn. -/
def c1_cex_oracle : SimOracle Unit where
  to_sfen := fun h => if h = [] then "bkr/p1p/3/P1P/RKB b - 1" else "bkr/p1p/3/P1P/RKB w - 2"
  set_position := fun _ => true
  best := fun _ => some (SearchResult.Move "1e2d")
  worst := fun _ => some SearchResult.Checkmate
  from_sfen := fun _ => some ()
  make_move := fun _ _ => true

/-- Concrete oracle whose selector reports no legal move. -/
def c1_wit_oracle : SimOracle Unit where
  to_sfen := fun _ => "bkr/p1p/3/P1P/RKB b - 1"
  set_position := fun _ => true
  best := fun _ => none
  worst := fun _ => none
  from_sfen := fun _ => some ()
  make_move := fun _ _ => true

/-- Concrete oracle reporting no legal move on the very first turn. -/
def c10_none_oracle : SimOracle Unit where
  to_sfen := fun _ => "bkr/p1p/3/P1P/RKB b - 1"
  set_position := fun _ => true
  best := fun _ => none
  worst := fun _ => none
  from_sfen := fun _ => some ()
  make_move := fun _ _ => true

/-- Concrete oracle reporting the explicit win signal on the first turn. -/
def c10_win_oracle : SimOracle Unit where
  to_sfen := fun _ => "bkr/p1p/3/P1P/RKB b - 1"
  set_position := fun _ => true
  best := fun _ => some SearchResult.Checkmate
  worst := fun _ => some SearchResult.Checkmate
  from_sfen := fun _ => some ()
  make_move := fun _ _ => true

/-- Concrete engine response stream: two candidate lines then a best move. -/
def c3_env : Nat → List EngineCommand := fun t =>
  if t = 10 then
    [EngineCommand.Info [InfoParams.MultiPv 1, InfoParams.Score 50 ScoreKind.CpExact,
       InfoParams.Pv ["1e2d"]],
     EngineCommand.Info [InfoParams.MultiPv 2, InfoParams.Score (-300) ScoreKind.CpExact,
       InfoParams.Pv ["3a2b"]],
     EngineCommand.BestMove (BestMoveParams.MakeMove "1e2d" none)]
  else []

/-- Concrete engine response streams: an immediate resignation with no
candidates at the normal budget, a real line at the escalated budget. -/
def c5_env_retry : Nat → List EngineCommand := fun t =>
  if t = 10 then [EngineCommand.BestMove BestMoveParams.Resign]
  else if t = 50 then
    [EngineCommand.Info [InfoParams.MultiPv 1, InfoParams.Score 10 ScoreKind.CpExact,
       InfoParams.Pv ["2c2b"]],
     EngineCommand.BestMove (BestMoveParams.MakeMove "2c2b" none)]
  else []

/-- Concrete engine response stream that needs no retry. -/
def c5_env_plain : Nat → List EngineCommand := fun t =>
  if t = 10 then [EngineCommand.BestMove (BestMoveParams.MakeMove "1e2d" none)] else []

/-- Concrete simulation outcomes: every attempt fails. -/
def c6_sim_fail : Nat → GameResult := fun _ => GameResult.Error

/-- Concrete simulation outcomes: the third attempt reaches checkmate. -/
def c6_sim_hit : Nat → GameResult := fun i =>
  if i = 3 then GameResult.Checkmate "bkr/p1p/3/P1P/RKB w - 9" else GameResult.NoResult

/-- Concrete simulation outcomes agreeing with `c6_sim_fail` on attempts
`1..=10` but succeeding on the never-performed attempt 11. -/
def c6_sim_late : Nat → GameResult := fun i =>
  if i ≤ 10 then GameResult.Error else GameResult.Checkmate "bkr/p1p/3/P1P/RKB w - 9"

/-- The rank indices of a candidate list. -/
def pv_keys (l : List PvInfo) : List Int := l.map (fun p => p.multipv)

/-- Concrete engine response stream in which a later rank-1 update overwrites
an earlier one. -/
def c7_events : List EngineCommand :=
  [EngineCommand.Info [InfoParams.MultiPv 1, InfoParams.Score 30 ScoreKind.CpExact,
     InfoParams.Pv ["2c2b"]],
   EngineCommand.Info [InfoParams.Score 40 ScoreKind.CpExact, InfoParams.Pv ["1e2d"]],
   EngineCommand.BestMove (BestMoveParams.MakeMove "1e2d" none)]

example : position_only_sfen "bkr/p1p/3/P1P/RKB b - 1" = "bkr/p1p/3/P1P/RKB b - 1" := by decide
example : position_only_sfen "bkr/p1p/3/P1P/RKB b - 1 moves 1e2d 3a2b" = "bkr/p1p/3/P1P/RKB b - 1" := by decide
example : convert_move_files "1e2d" = "3e2d" := by decide
example : convert_move_files "3a2b" = "1a2b" := by decide
example : convert_move_files "2c2c" = "2c2c" := by decide
example : convert_move_files "P*2c" = "P*2c" := by decide
example : convert_move_files "P*1a" = "P*3a" := by decide
example : convert_move_files "B*3e" = "B*1e" := by decide
example : convert_move_files "1a1b+" = "3a3b+" := by decide
example : convert_move_files "3d3e+" = "1d1e+" := by decide
example : split_whitespace "bkr/p1p/3/P1P/RKB w - 7" = ["bkr/p1p/3/P1P/RKB", "w", "-", "7"] := by decide
example : mirror_sfen "bkr/p1p/3/P1P/RKB w - 7" = "bkr/p1p/3/P1P/RKB b - 7" := by decide
example : reset_move_counter "bkr/p1p/3/P1P/RKB b - 7" = "bkr/p1p/3/P1P/RKB b - 1" := by decide

theorem toNat_ofNat_letter (n : Nat) (h1 : 65 ≤ n) (h2 : n ≤ 122) :
    (Char.ofNat n).toNat = n := by
  have hv : n.isValidChar := Or.inl (by omega)
  simp [Char.ofNat, hv, Char.ofNatAux, Char.toNat, UInt32.toNat, BitVec.toNat_ofNat]

theorem isWhitespace_eq_false_of_toNat (d : Char) (h1 : 65 ≤ d.toNat) (h2 : d.toNat ≤ 122) :
    d.isWhitespace = false := by
  have hs : ∀ e : Char, d = e → 65 ≤ e.toNat ∧ e.toNat ≤ 122 := by
    intro e he
    exact he ▸ ⟨h1, h2⟩
  simp only [Char.isWhitespace, Bool.or_eq_false_iff, decide_eq_false_iff_not]
  refine ⟨⟨⟨?_, ?_⟩, ?_⟩, ?_⟩ <;>
    · intro he
      have := hs _ he
      revert this
      decide

theorem swap_case_not_ws (c : Char) (h : c.isWhitespace = false) :
    (swap_case c).isWhitespace = false := by
  unfold swap_case
  split
  · rename_i h1
    apply isWhitespace_eq_false_of_toNat
    · rw [toNat_ofNat_letter (c.toNat - 32) (by omega) (by omega)]
      omega
    · rw [toNat_ofNat_letter (c.toNat - 32) (by omega) (by omega)]
      omega
  · split
    · rename_i h1 h2
      apply isWhitespace_eq_false_of_toNat
      · rw [toNat_ofNat_letter (c.toNat + 32) (by omega) (by omega)]
        omega
      · rw [toNat_ofNat_letter (c.toNat + 32) (by omega) (by omega)]
        omega
    · exact h

theorem good_field_mirror_board (b : String) (hb : good_field b) :
    good_field (mirror_board b) := by
  obtain ⟨hne, hws⟩ := hb
  constructor
  · simp [mirror_board]
    exact hne
  · intro c hc
    simp only [mirror_board, List.mem_map, List.mem_reverse] at hc
    obtain ⟨a, ha, rfl⟩ := hc
    exact swap_case_not_ws a (hws a ha)

theorem good_field_flip_side (s : String) (hs : good_field s) :
    good_field (flip_side s) := by
  unfold flip_side
  split
  · exact ⟨by decide, by decide⟩
  · split
    · exact ⟨by decide, by decide⟩
    · exact hs

theorem splitWsCore_word (w : List Char) (hw : ∀ c ∈ w, c.isWhitespace = false) :
    ∀ (t acc : List Char), splitWsCore (w ++ t) acc = splitWsCore t (w.reverse ++ acc) := by
  induction w with
  | nil => intro t acc; simp
  | cons c cs ih =>
    intro t acc
    have hc : c.isWhitespace = false := hw c (by simp)
    have ih' := ih (fun x hx => hw x (by simp [hx])) t (c :: acc)
    simp only [List.cons_append, splitWsCore, hc, Bool.false_eq_true, if_false,
      List.reverse_cons, List.append_assoc, List.singleton_append, List.nil_append]
    exact ih'

theorem splitWsCore_space (cs acc : List Char) :
    splitWsCore (' ' :: cs) acc =
      (if acc = [] then [] else [⟨acc.reverse⟩]) ++ splitWsCore cs [] := by
  simp [splitWsCore]

theorem split_join (l : List String) (h : ∀ x ∈ l, good_field x) :
    split_whitespace (join_fields l) = l := by
  induction l with
  | nil => rfl
  | cons x xs ih =>
    cases xs with
    | nil =>
      obtain ⟨hne, hws⟩ := h x (by simp)
      have hw := splitWsCore_word x.data hws [] []
      simp only [List.append_nil] at hw
      simp only [split_whitespace, join_fields, hw, splitWsCore]
      simp [hne]
    | cons y rest =>
      obtain ⟨hne, hws⟩ := h x (by simp)
      have ihr := ih (fun z hz => h z (by simp [List.mem_cons] at hz ⊢; tauto))
      have hdata : (join_fields (x :: y :: rest)).data
          = x.data ++ ' ' :: (join_fields (y :: rest)).data := by
        simp [join_fields, String.data_append]
      have hw := splitWsCore_word x.data hws (' ' :: (join_fields (y :: rest)).data) []
      simp only [List.append_nil] at hw
      simp only [split_whitespace, hdata, hw, splitWsCore_space, hne]
      simp only [List.reverse_eq_nil_iff]
      rw [if_neg hne]
      simp only [List.reverse_reverse]
      rw [show (⟨x.data⟩ : String) = x from rfl]
      simp only [List.singleton_append, List.cons.injEq, true_and]
      exact ihr

theorem splitWsCore_good :
    ∀ (l acc : List Char), (∀ c ∈ acc, c.isWhitespace = false) →
      ∀ x ∈ splitWsCore l acc, good_field x := by
  intro l
  induction l with
  | nil =>
    intro acc hacc x hx
    simp only [splitWsCore] at hx
    split at hx
    · simp at hx
    · rename_i hne
      simp only [List.mem_singleton] at hx
      subst hx
      exact ⟨by simpa using hne, by simpa using hacc⟩
  | cons c cs ih =>
    intro acc hacc x hx
    by_cases hc : c.isWhitespace = true
    · simp only [splitWsCore, hc, if_true, List.mem_append] at hx
      rcases hx with hx | hx
      · split at hx
        · simp at hx
        · rename_i hne
          simp only [List.mem_singleton] at hx
          subst hx
          exact ⟨by simpa using hne, by simpa using hacc⟩
      · exact ih [] (by simp) x hx
    · have hc' : c.isWhitespace = false := by simpa using hc
      simp only [splitWsCore, hc', Bool.false_eq_true, if_false] at hx
      refine ih (c :: acc) ?_ x hx
      intro a ha
      rcases List.mem_cons.mp ha with rfl | ha
      · exact hc'
      · exact hacc a ha

theorem split_whitespace_good (s : String) : ∀ x ∈ split_whitespace s, good_field x :=
  splitWsCore_good s.data [] (by simp)

theorem split_mirror_reset (s bd sd hd cnt : String)
    (h : split_whitespace s = [bd, sd, hd, cnt]) :
    reset_move_counter (mirror_sfen s) =
      mirror_board bd ++ " " ++ flip_side sd ++ " " ++ hd ++ " 1" ∧
    split_whitespace (reset_move_counter (mirror_sfen s)) =
      [mirror_board bd, flip_side sd, hd, "1"] := by
  have hgood : ∀ x ∈ split_whitespace s, good_field x := split_whitespace_good s
  rw [h] at hgood
  have hbd : good_field bd := hgood bd (by simp)
  have hsd : good_field sd := hgood sd (by simp)
  have hhd : good_field hd := hgood hd (by simp)
  have hcnt : good_field cnt := hgood cnt (by simp)
  have hm : mirror_sfen s = join_fields [mirror_board bd, flip_side sd, hd, cnt] := by
    unfold mirror_sfen
    rw [h]
  have hsplitm : split_whitespace (mirror_sfen s)
      = [mirror_board bd, flip_side sd, hd, cnt] := by
    rw [hm]
    apply split_join
    intro x hx
    simp only [List.mem_cons, List.not_mem_nil, or_false] at hx
    rcases hx with rfl | rfl | rfl | rfl
    · exact good_field_mirror_board bd hbd
    · exact good_field_flip_side sd hsd
    · exact hhd
    · exact hcnt
  have hr : reset_move_counter (mirror_sfen s) =
      mirror_board bd ++ " " ++ flip_side sd ++ " " ++ hd ++ " 1" := by
    unfold reset_move_counter
    rw [hsplitm]
  refine ⟨hr, ?_⟩
  rw [hr]
  have hjoin : mirror_board bd ++ " " ++ flip_side sd ++ " " ++ hd ++ " 1"
      = join_fields [mirror_board bd, flip_side sd, hd, "1"] := by
    simp only [join_fields]
    rw [show (" 1" : String) = " " ++ "1" from rfl]
    simp only [String.append_assoc]
  rw [hjoin]
  apply split_join
  intro x hx
  simp only [List.mem_cons, List.not_mem_nil, or_false] at hx
  rcases hx with rfl | rfl | rfl | rfl
  · exact good_field_mirror_board bd hbd
  · exact good_field_flip_side sd hsd
  · exact hhd
  · exact ⟨by decide, by decide⟩

/-- C1 (amended): at a checkmate-equivalent terminal of `simulate_game`, the
puzzle record is the mirrored `sfen_before_last_move` with the move counter
reset to 1 whenever the defender (White) won, and the unmirrored
`sfen_before_last_move` whenever the attacker (Black) won.  When White won
because Black had no legal reply, the saved position has White to move, so
the mirrored record's side-to-move field is Black; but when White delivered
the mate through the explicit win signal, the saved position (recorded
before Black's preceding move) has Black to move, so the mirrored record's
side-to-move field is White, not Black. -/
theorem simulate_game_terminal_records {Mv : Type} (o : SimOracle Mv)
    (fuel : Nat) (history : List String) (before bd sd hd cnt : String)
    (h4 : split_whitespace before = [bd, sd, hd, cnt]) :
    (o.set_position history = true → o.best history = none → sd = "w" →
      simulate_game_go o (fuel + 1) history true before
          = some (GameResult.Checkmate (reset_move_counter (mirror_sfen before)))
        ∧ split_whitespace (reset_move_counter (mirror_sfen before))
          = [mirror_board bd, "b", hd, "1"])
  ∧ (o.set_position history = true → o.worst history = some SearchResult.Checkmate →
      sd = "b" →
      simulate_game_go o (fuel + 1) history false before
          = some (GameResult.Checkmate (reset_move_counter (mirror_sfen before)))
        ∧ split_whitespace (reset_move_counter (mirror_sfen before))
          = [mirror_board bd, "w", hd, "1"])
  ∧ (o.set_position history = true → o.best history = some SearchResult.Checkmate →
      simulate_game_go o (fuel + 1) history true before
        = some (GameResult.Checkmate before))
  ∧ (o.set_position history = true → o.worst history = none →
      simulate_game_go o (fuel + 1) history false before
        = some (GameResult.Checkmate before)) := by
  refine ⟨?_, ?_, ?_, ?_⟩
  · intro hset hsel hsd
    subst hsd
    obtain ⟨hre, hrs⟩ := split_mirror_reset before bd "w" hd cnt h4
    refine ⟨by simp [simulate_game_go, hset, hsel], ?_⟩
    rw [hrs]
    simp [flip_side]
  · intro hset hsel hsd
    subst hsd
    obtain ⟨hre, hrs⟩ := split_mirror_reset before bd "b" hd cnt h4
    refine ⟨by simp [simulate_game_go, hset, hsel], ?_⟩
    rw [hrs]
    simp [flip_side]
  · intro hset hsel
    simp [simulate_game_go, hset, hsel]
  · intro hset hsel
    simp [simulate_game_go, hset, hsel]

/-- C1 witness: a defender win by no-legal-reply, at a concrete oracle and
position: the record is the mirrored position with Black to move and the
move counter reset to 1. -/
theorem simulate_game_terminal_records_witness :
    simulate_game_go c1_wit_oracle 1 [] true "bkr/p1p/3/P1P/RKB w - 2"
        = some (GameResult.Checkmate "bkr/p1p/3/P1P/RKB b - 1")
      ∧ split_whitespace "bkr/p1p/3/P1P/RKB b - 1" = ["bkr/p1p/3/P1P/RKB", "b", "-", "1"] := by
  have h := (simulate_game_terminal_records c1_wit_oracle 0 [] "bkr/p1p/3/P1P/RKB w - 2"
    "bkr/p1p/3/P1P/RKB" "w" "-" "2" (by decide)).1 rfl rfl rfl
  rw [show reset_move_counter (mirror_sfen "bkr/p1p/3/P1P/RKB w - 2")
    = "bkr/p1p/3/P1P/RKB b - 1" from by decide] at h
  rw [show mirror_board "bkr/p1p/3/P1P/RKB" = "bkr/p1p/3/P1P/RKB" from by decide] at h
  exact h

/-- C1 counterexample: on a concrete run where the defender (White, playing
Worst) delivers the mate through the explicit win signal, the puzzle record
is mirrored but its side-to-move field is White, not the designated
attacking color Black as the claim states. -/
theorem simulate_game_win_signal_side_cex :
    simulate_game c1_cex_oracle = some (GameResult.Checkmate "bkr/p1p/3/P1P/RKB w - 1")
      ∧ (split_whitespace "bkr/p1p/3/P1P/RKB w - 1").get? 1 = some "w"
      ∧ ¬ (split_whitespace "bkr/p1p/3/P1P/RKB w - 1").get? 1 = some "b" := by
  refine ⟨?_, by decide, by decide⟩
  decide

/-- C10: if `simulate_game` reaches a terminal on the very first turn (no
move available, or the explicit checkmate signal, before any move has been
applied), the record is derived from the empty string that initializes
`sfen_before_last_move` — the empty string itself or its mirror, which also
collapses to the empty string — and never the starting position. -/
theorem simulate_game_first_turn_record {Mv : Type} (o : SimOracle Mv) :
    (o.set_position [] = true → o.best [] = none →
        simulate_game o = some (GameResult.Checkmate (reset_move_counter (mirror_sfen ""))))
  ∧ (o.set_position [] = true → o.best [] = some SearchResult.Checkmate →
        simulate_game o = some (GameResult.Checkmate ""))
  ∧ reset_move_counter (mirror_sfen "") = ""
  ∧ ("" : String) ≠ STARTING_SFEN := by
  refine ⟨?_, ?_, by decide, by decide⟩
  · intro hset hsel
    show simulate_game_go o MAX_MOVES [] true "" = _
    rw [show MAX_MOVES = 299 + 1 from rfl]
    simp [simulate_game_go, hset, hsel]
  · intro hset hsel
    show simulate_game_go o MAX_MOVES [] true "" = _
    rw [show MAX_MOVES = 299 + 1 from rfl]
    simp [simulate_game_go, hset, hsel]

/-- C10 witness: concrete first-turn terminals of both kinds produce the
empty-string record. -/
theorem simulate_game_first_turn_record_witness :
    simulate_game c10_none_oracle = some (GameResult.Checkmate "")
      ∧ simulate_game c10_win_oracle = some (GameResult.Checkmate "") := by
  constructor
  · have h := (simulate_game_first_turn_record c10_none_oracle).1 rfl rfl
    rw [show reset_move_counter (mirror_sfen "") = "" from by decide] at h
    exact h
  · exact (simulate_game_first_turn_record c10_win_oracle).2.1 rfl rfl

theorem to_digit_char (c : Char) (d : Nat) (h : to_digit c = some d) :
    c = Char.ofNat (48 + d) ∧ d ≤ 9 := by
  unfold to_digit at h
  split at h
  · rename_i hc
    simp only [Option.some.injEq] at h
    constructor
    · have h48 : 48 + d = c.toNat := by omega
      rw [h48, Char.ofNat_toNat]
    · omega
  · exact absurd h (by simp)

theorem to_digit_ofNat (d : Nat) (hd : d ≤ 9) : to_digit (Char.ofNat (48 + d)) = some d := by
  interval_cases d <;> decide

theorem repr_digit (d : Nat) (hd : d ≤ 9) : Nat.repr d = ⟨[Char.ofNat (48 + d)]⟩ := by
  interval_cases d <;> decide

theorem u32_sub_4 (d : Nat) (hd : d ≤ 4) : u32_sub 4 d = 4 - d := by
  have h32 : (2 : Nat) ^ 32 = 4294967296 := by norm_num
  rw [u32_sub, h32]
  omega

theorem convert_drop_step (p c r : Char) (d : Nat) (hc : to_digit c = some d) :
    convert_move_files ⟨[p, '*', c, r]⟩
      = ⟨p :: '*' :: (Nat.repr (u32_sub 4 d)).data ++ [r]⟩ := by
  simp [convert_move_files, hc]

theorem convert_normal_step (c0 c1 c2 c3 : Char) (rest : List Char) (d0 d2 : Nat)
    (h1 : c1 ≠ '*') (h0 : to_digit c0 = some d0) (h2 : to_digit c2 = some d2) :
    convert_move_files ⟨c0 :: c1 :: c2 :: c3 :: rest⟩
      = ⟨(Nat.repr (u32_sub 4 d0)).data ++ c1 :: (Nat.repr (u32_sub 4 d2)).data
          ++ c3 :: rest⟩ := by
  simp [convert_move_files, h1, h0, h2]

/-- C2 (amended): double application of `convert_move_files` returns the
original token for drop moves and from/to-coordinate moves whose file digits
are at most 4 (in particular for all legal files 1 to 3), because
`4 - (4 - f) = f` there; for a file digit of 5 or more the `u32` subtraction
`4 - f` wraps around, so the involution does not extend to arbitrary digit
characters. -/
theorem convert_move_files_involution :
    (∀ (p c r : Char) (d : Nat), to_digit c = some d → d ≤ 4 →
        convert_move_files (convert_move_files ⟨[p, '*', c, r]⟩) = ⟨[p, '*', c, r]⟩)
  ∧ (∀ (c0 c1 c2 c3 : Char) (rest : List Char) (d0 d2 : Nat), c1 ≠ '*' →
        to_digit c0 = some d0 → to_digit c2 = some d2 → d0 ≤ 4 → d2 ≤ 4 →
        convert_move_files (convert_move_files ⟨c0 :: c1 :: c2 :: c3 :: rest⟩)
          = ⟨c0 :: c1 :: c2 :: c3 :: rest⟩) := by
  constructor
  · intro p c r d hc hd
    obtain ⟨hc0, hd9⟩ := to_digit_char c d hc
    subst hc0
    rw [convert_drop_step p _ r d hc, u32_sub_4 d hd, repr_digit (4 - d) (by omega)]
    show convert_move_files ⟨[p, '*', Char.ofNat (48 + (4 - d)), r]⟩ = _
    rw [convert_drop_step p _ r (4 - d) (to_digit_ofNat (4 - d) (by omega)),
      u32_sub_4 (4 - d) (by omega), show 4 - (4 - d) = d from by omega,
      repr_digit d hd9]
    rfl
  · intro c0 c1 c2 c3 rest d0 d2 h1 h0 h2 hd0 hd2
    obtain ⟨hc0, hd09⟩ := to_digit_char c0 d0 h0
    obtain ⟨hc2, hd29⟩ := to_digit_char c2 d2 h2
    subst hc0
    subst hc2
    rw [convert_normal_step _ c1 _ c3 rest d0 d2 h1 h0 h2,
      u32_sub_4 d0 hd0, u32_sub_4 d2 hd2,
      repr_digit (4 - d0) (by omega), repr_digit (4 - d2) (by omega)]
    show convert_move_files
        ⟨Char.ofNat (48 + (4 - d0)) :: c1 :: Char.ofNat (48 + (4 - d2)) :: c3 :: rest⟩ = _
    rw [convert_normal_step _ c1 _ c3 rest (4 - d0) (4 - d2) h1
        (to_digit_ofNat (4 - d0) (by omega)) (to_digit_ofNat (4 - d2) (by omega)),
      u32_sub_4 (4 - d0) (by omega), u32_sub_4 (4 - d2) (by omega),
      show 4 - (4 - d0) = d0 from by omega, show 4 - (4 - d2) = d2 from by omega,
      repr_digit d0 hd09, repr_digit d2 hd29]
    rfl

/-- C2 witness: the involution at the concrete legal tokens of the source's
unit tests. -/
theorem convert_move_files_involution_witness :
    convert_move_files (convert_move_files "P*1a") = "P*1a"
      ∧ convert_move_files (convert_move_files "1e2d") = "1e2d" :=
  ⟨convert_move_files_involution.1 'P' '1' 'a' 1 (by decide) (by decide),
   convert_move_files_involution.2 '1' 'e' '2' 'd' [] 1 2 (by decide) (by decide)
     (by decide) (by decide) (by decide)⟩

/-- C2 counterexample: the destination file character of the drop token
`"P*9b"` is a digit, yet double conversion does not return the token: the
`u32` computation `4 - 9` wraps to `4294967291`. -/
theorem convert_move_files_involution_cex :
    convert_move_files "P*9b" = "P*4294967291b"
      ∧ convert_move_files (convert_move_files "P*9b") = "P*02"
      ∧ convert_move_files (convert_move_files "P*9b") ≠ "P*9b" := by
  refine ⟨by decide, by decide, by decide⟩

theorem isPrefixOf_ex (p : List Char) : ∀ l, p.isPrefixOf l = true ↔ ∃ t, l = p ++ t := by
  induction p with
  | nil =>
    intro l
    simp [List.isPrefixOf]
  | cons a as ih =>
    intro l
    cases l with
    | nil =>
      simp [List.isPrefixOf]
    | cons b bs =>
      simp only [List.isPrefixOf, Bool.and_eq_true, beq_iff_eq, ih bs, List.cons_append]
      constructor
      · rintro ⟨rfl, t, rfl⟩
        exact ⟨t, rfl⟩
      · rintro ⟨t, ht⟩
        simp only [List.cons.injEq] at ht
        obtain ⟨rfl, rfl⟩ := ht
        exact ⟨rfl, t, rfl⟩

theorem bool_eq_false {b : Bool} (h : ¬ b = true) : b = false := by
  cases b
  · rfl
  · exact absurd rfl h

theorem find_sub_none (pat : List Char) :
    ∀ l, find_sub pat l = none → ∀ j, pat.isPrefixOf (l.drop j) = false := by
  intro l
  induction l with
  | nil =>
    intro h j
    simp only [find_sub] at h
    split at h
    · exact absurd h (by simp)
    · rename_i hp
      rw [List.drop_nil]
      exact bool_eq_false hp
  | cons c cs ih =>
    intro h j
    simp only [find_sub] at h
    split at h
    · exact absurd h (by simp)
    · rename_i hp
      have hcs : find_sub pat cs = none := by
        cases hfs : find_sub pat cs with
        | none => rfl
        | some k => rw [hfs] at h; simp at h
      cases j with
      | zero => exact bool_eq_false hp
      | succ j =>
        rw [List.drop_succ_cons]
        exact ih hcs j

theorem find_sub_some (pat : List Char) :
    ∀ l i, find_sub pat l = some i →
      pat.isPrefixOf (l.drop i) = true ∧ ∀ j < i, pat.isPrefixOf (l.drop j) = false := by
  intro l
  induction l with
  | nil =>
    intro i h
    simp only [find_sub] at h
    split at h
    · rename_i hp
      simp only [Option.some.injEq] at h
      subst h
      exact ⟨by simpa using hp, by intro j hj; omega⟩
    · exact absurd h (by simp)
  | cons c cs ih =>
    intro i h
    simp only [find_sub] at h
    split at h
    · rename_i hp
      simp only [Option.some.injEq] at h
      subst h
      exact ⟨by simpa using hp, by intro j hj; omega⟩
    · rename_i hp
      cases hfs : find_sub pat cs with
      | none => rw [hfs] at h; simp at h
      | some k =>
        rw [hfs] at h
        simp at h
        subst h
        obtain ⟨h1, h2⟩ := ih k hfs
        constructor
        · rw [List.drop_succ_cons]
          exact h1
        · intro j hj
          cases j with
          | zero => exact bool_eq_false hp
          | succ j =>
            rw [List.drop_succ_cons]
            exact h2 j (by omega)

theorem prefixOf_take (p l : List Char) (n : Nat) (h : p.isPrefixOf (l.take n) = true) :
    p.isPrefixOf l = true := by
  rw [isPrefixOf_ex] at h ⊢
  obtain ⟨t, ht⟩ := h
  refine ⟨t ++ l.drop n, ?_⟩
  calc l = l.take n ++ l.drop n := (List.take_append_drop n l).symm
  _ = (p ++ t) ++ l.drop n := by rw [← ht]
  _ = p ++ (t ++ l.drop n) := by rw [List.append_assoc]

theorem find_sub_take_none (pat l : List Char) (i : Nat) (hne : pat ≠ [])
    (h : find_sub pat l = some i) : find_sub pat (l.take i) = none := by
  cases hfs : find_sub pat (l.take i) with
  | none => rfl
  | some j =>
    obtain ⟨h1, _⟩ := find_sub_some pat (l.take i) j hfs
    obtain ⟨hp, hmin⟩ := find_sub_some pat l i h
    by_cases hj : j < i
    · have hfull : pat.isPrefixOf (l.drop j) = true := by
        rw [List.drop_take] at h1
        exact prefixOf_take _ _ _ h1
      rw [hmin j hj] at hfull
      exact absurd hfull (by simp)
    · have hlen : (l.take i).length ≤ j := by
        rw [List.length_take]
        omega
      rw [List.drop_eq_nil_of_le hlen] at h1
      cases pat with
      | nil => exact (hne rfl).elim
      | cons a as => simp [List.isPrefixOf] at h1

/-- C9: `position_only_sfen` returns the input unchanged when `" moves"` does
not occur in it; when `" moves"` first occurs at index `idx`, the result is
the prefix before that occurrence (the input decomposes as the result, then
`" moves"`, then the remaining suffix, and the result itself contains no
further `" moves"` occurrence); and the function is idempotent on every
string. -/
theorem position_only_sfen_spec (s : String) :
    (find_sub " moves".data s.data = none → position_only_sfen s = s)
  ∧ (∀ idx, find_sub " moves".data s.data = some idx →
      s.data = (position_only_sfen s).data ++ " moves".data ++ s.data.drop (idx + 6)
        ∧ find_sub " moves".data (position_only_sfen s).data = none)
  ∧ position_only_sfen (position_only_sfen s) = position_only_sfen s := by
  have hnone : find_sub " moves".data s.data = none → position_only_sfen s = s := by
    intro h
    unfold position_only_sfen
    rw [h]
  have hsome : ∀ idx, find_sub " moves".data s.data = some idx →
      position_only_sfen s = ⟨s.data.take idx⟩ := by
    intro idx h
    unfold position_only_sfen
    rw [h]
  refine ⟨hnone, ?_, ?_⟩
  · intro idx h
    have hres := hsome idx h
    obtain ⟨hp, hmin⟩ := find_sub_some _ _ _ h
    rw [isPrefixOf_ex] at hp
    obtain ⟨t, ht⟩ := hp
    constructor
    · have h3 : t = s.data.drop (idx + 6) := by
        have hd : (s.data.drop idx).drop 6 = t := by
          rw [ht, show (6 : Nat) = (" moves".data).length from rfl, List.drop_left]
        rw [List.drop_drop] at hd
        exact hd.symm
      rw [hres, ← h3, show (⟨s.data.take idx⟩ : String).data = s.data.take idx from rfl]
      calc s.data = s.data.take idx ++ s.data.drop idx := (List.take_append_drop idx s.data).symm
      _ = s.data.take idx ++ (" moves".data ++ t) := by rw [ht]
      _ = s.data.take idx ++ " moves".data ++ t := by rw [List.append_assoc]
    · rw [hres]
      exact find_sub_take_none _ _ _ (by decide) h
  · cases hf : find_sub " moves".data s.data with
    | none =>
      rw [hnone hf]
      exact hnone hf
    | some idx =>
      rw [hsome idx hf]
      have hn : find_sub " moves".data (s.data.take idx) = none :=
        find_sub_take_none _ _ _ (by decide) hf
      unfold position_only_sfen
      rw [show (⟨s.data.take idx⟩ : String).data = s.data.take idx from rfl, hn]

/-- C9 witness: the stripping behaviour at the concrete strings of the
source's unit tests. -/
theorem position_only_sfen_spec_witness :
    position_only_sfen "bkr/p1p/3/P1P/RKB b - 1" = "bkr/p1p/3/P1P/RKB b - 1"
  ∧ find_sub " moves".data
      (position_only_sfen "bkr/p1p/3/P1P/RKB b - 1 moves 1e2d 3a2b").data = none
  ∧ position_only_sfen (position_only_sfen "bkr/p1p/3/P1P/RKB b - 1 moves 1e2d 3a2b")
      = position_only_sfen "bkr/p1p/3/P1P/RKB b - 1 moves 1e2d 3a2b" :=
  ⟨(position_only_sfen_spec "bkr/p1p/3/P1P/RKB b - 1").1 (by decide),
   ((position_only_sfen_spec "bkr/p1p/3/P1P/RKB b - 1 moves 1e2d 3a2b").2.1 23 (by decide)).2,
   (position_only_sfen_spec "bkr/p1p/3/P1P/RKB b - 1 moves 1e2d 3a2b").2.2⟩

theorem foldl_min_char :
    ∀ (l : List PvInfo) (m m'' : PvInfo), l.foldl min_step (some m) = some m'' →
      m''.score ≤ m.score ∧ (∀ x ∈ l, m''.score ≤ x.score) ∧
        (m'' = m ∨ ∃ l1 l2, l = l1 ++ m'' :: l2 ∧ m''.score < m.score
          ∧ ∀ x ∈ l1, m''.score < x.score) := by
  intro l
  induction l with
  | nil =>
    intro m m'' h
    simp only [List.foldl_nil, Option.some.injEq] at h
    subst h
    exact ⟨le_refl _, by simp, Or.inl rfl⟩
  | cons pv rest ih =>
    intro m m'' h
    simp only [List.foldl_cons] at h
    by_cases hlt : pv.score < m.score
    · rw [show min_step (some m) pv = some pv from by simp [min_step, hlt]] at h
      obtain ⟨ha, hb, hc⟩ := ih pv m'' h
      refine ⟨le_trans ha (le_of_lt hlt), ?_, ?_⟩
      · intro x hx
        rcases List.mem_cons.mp hx with rfl | hx
        · exact ha
        · exact hb x hx
      · rcases hc with rfl | ⟨l1, l2, hrest, hsc, hl1⟩
        · exact Or.inr ⟨[], rest, rfl, hlt, by simp⟩
        · refine Or.inr ⟨pv :: l1, l2, by rw [hrest, List.cons_append], lt_trans hsc hlt, ?_⟩
          intro x hx
          rcases List.mem_cons.mp hx with rfl | hx
          · exact hsc
          · exact hl1 x hx
    · rw [show min_step (some m) pv = some m from by simp [min_step, hlt]] at h
      obtain ⟨ha, hb, hc⟩ := ih m m'' h
      refine ⟨ha, ?_, ?_⟩
      · intro x hx
        rcases List.mem_cons.mp hx with rfl | hx
        · exact le_trans ha (le_of_not_lt hlt)
        · exact hb x hx
      · rcases hc with rfl | ⟨l1, l2, hrest, hsc, hl1⟩
        · exact Or.inl rfl
        · refine Or.inr ⟨pv :: l1, l2, by rw [hrest, List.cons_append], hsc, ?_⟩
          intro x hx
          rcases List.mem_cons.mp hx with rfl | hx
          · exact lt_of_lt_of_le hsc (le_of_not_lt hlt)
          · exact hl1 x hx

theorem min_by_score_char (l : List PvInfo) (m : PvInfo) (h : min_by_score l = some m) :
    (∀ x ∈ l, m.score ≤ x.score)
      ∧ ∃ l1 l2, l = l1 ++ m :: l2 ∧ ∀ x ∈ l1, m.score < x.score := by
  cases l with
  | nil => simp [min_by_score] at h
  | cons pv rest =>
    have h' : rest.foldl min_step (some pv) = some m := by
      simpa [min_by_score, min_step] using h
    obtain ⟨ha, hb, hc⟩ := foldl_min_char rest pv m h'
    constructor
    · intro x hx
      rcases List.mem_cons.mp hx with rfl | hx
      · exact ha
      · exact hb x hx
    · rcases hc with rfl | ⟨l1, l2, hrest, hsc, hl1⟩
      · exact ⟨[], rest, rfl, by simp⟩
      · refine ⟨pv :: l1, l2, by rw [hrest, List.cons_append], ?_⟩
        intro x hx
        rcases List.mem_cons.mp hx with rfl | hx
        · exact hsc
        · exact hl1 x hx

theorem foldl_min_isSome :
    ∀ (l : List PvInfo) (m : PvInfo), ∃ m', l.foldl min_step (some m) = some m' := by
  intro l
  induction l with
  | nil => intro m; exact ⟨m, rfl⟩
  | cons pv rest ih =>
    intro m
    simp only [List.foldl_cons]
    by_cases hlt : pv.score < m.score
    · rw [show min_step (some m) pv = some pv from by simp [min_step, hlt]]
      exact ih pv
    · rw [show min_step (some m) pv = some m from by simp [min_step, hlt]]
      exact ih m

theorem min_by_score_nonempty (l : List PvInfo) (hl : l ≠ []) :
    ∃ m, min_by_score l = some m := by
  cases l with
  | nil => exact (hl rfl).elim
  | cons pv rest =>
    obtain ⟨m, hm⟩ := foldl_min_isSome rest pv
    exact ⟨m, by simpa [min_by_score, min_step] using hm⟩

theorem get_best_move_eq (env : Nat → List EngineCommand) (pvs : List PvInfo)
    (r : SearchResult) (h : search env = some (pvs, r)) :
    get_best_move env =
      match (pvs.find? (fun pv => pv.multipv == 1)).bind (fun pv1 => pv1.moves.head?) with
      | some mv => some (SearchResult.Move mv)
      | none => fallback_move r := by
  unfold get_best_move
  simp only [h]
  rfl

theorem get_worst_move_eq (env : Nat → List EngineCommand) (pvs : List PvInfo)
    (r : SearchResult) (h : search env = some (pvs, r)) :
    get_worst_move env =
      match (min_by_score (pvs.filter (fun pv => !pv.moves.isEmpty))).bind
          (fun pv => pv.moves.head?) with
      | some mv => some (SearchResult.Move mv)
      | none => fallback_move r := by
  unfold get_worst_move
  simp only [h]
  rfl

/-- C3: move selection is a deterministic function of the candidate set and
terminal outcome of one search call: `get_best_move` returns the first move
of the first rank-1 candidate when that candidate has a move; `get_worst_move`
returns the first move of the first minimum-score candidate among those with
at least one move (earlier candidates all score strictly higher); when no
such candidate exists, both fall back to the terminal outcome's move, pass a
checkmate outcome through, and return no move on resignation. -/
theorem move_selection_deterministic (env : Nat → List EngineCommand)
    (pvs : List PvInfo) (r : SearchResult) (h : search env = some (pvs, r)) :
    (∀ pv1 mv, pvs.find? (fun pv => pv.multipv == 1) = some pv1 →
        pv1.moves.head? = some mv → get_best_move env = some (SearchResult.Move mv))
  ∧ ((pvs.find? (fun pv => pv.multipv == 1)).bind (fun pv1 => pv1.moves.head?) = none →
      (∀ mv0, r = SearchResult.Move mv0 → get_best_move env = some (SearchResult.Move mv0))
        ∧ (r = SearchResult.Checkmate → get_best_move env = some SearchResult.Checkmate)
        ∧ (r = SearchResult.Resign → get_best_move env = none))
  ∧ (pvs.filter (fun pv => !pv.moves.isEmpty) ≠ [] →
      ∃ m mv, min_by_score (pvs.filter (fun pv => !pv.moves.isEmpty)) = some m
        ∧ m.moves.head? = some mv
        ∧ get_worst_move env = some (SearchResult.Move mv)
        ∧ (∀ x ∈ pvs.filter (fun pv => !pv.moves.isEmpty), m.score ≤ x.score)
        ∧ ∃ l1 l2, pvs.filter (fun pv => !pv.moves.isEmpty) = l1 ++ m :: l2
            ∧ ∀ x ∈ l1, m.score < x.score)
  ∧ (pvs.filter (fun pv => !pv.moves.isEmpty) = [] →
      (∀ mv0, r = SearchResult.Move mv0 → get_worst_move env = some (SearchResult.Move mv0))
        ∧ (r = SearchResult.Checkmate → get_worst_move env = some SearchResult.Checkmate)
        ∧ (r = SearchResult.Resign → get_worst_move env = none)) := by
  refine ⟨?_, ?_, ?_, ?_⟩
  · intro pv1 mv h1 h2
    rw [get_best_move_eq env pvs r h, h1]
    simp [h2]
  · intro hb
    refine ⟨?_, ?_, ?_⟩
    · intro mv0 hr
      subst hr
      rw [get_best_move_eq env pvs _ h, hb]
      rfl
    · intro hr
      subst hr
      rw [get_best_move_eq env pvs _ h, hb]
      rfl
    · intro hr
      subst hr
      rw [get_best_move_eq env pvs _ h, hb]
      rfl
  · intro hfil
    obtain ⟨m, hm⟩ := min_by_score_nonempty _ hfil
    obtain ⟨hle, l1, l2, hdec, hl1⟩ := min_by_score_char _ m hm
    have hmem : m ∈ pvs.filter (fun pv => !pv.moves.isEmpty) := by
      rw [hdec]
      exact List.mem_append.mpr (Or.inr (List.mem_cons_self m l2))
    have hmoves : m.moves ≠ [] := by
      have := (List.mem_filter.mp hmem).2
      simpa using this
    obtain ⟨mv, hmv⟩ : ∃ mv, m.moves.head? = some mv := by
      cases hms : m.moves with
      | nil => exact (hmoves hms).elim
      | cons a as => exact ⟨a, by simp [hms]⟩
    refine ⟨m, mv, hm, hmv, ?_, hle, l1, l2, hdec, hl1⟩
    rw [get_worst_move_eq env pvs r h, hm]
    simp [hmv]
  · intro hfil
    have hmin : min_by_score (pvs.filter (fun pv => !pv.moves.isEmpty)) = none := by
      rw [hfil]
      rfl
    refine ⟨?_, ?_, ?_⟩
    · intro mv0 hr
      subst hr
      rw [get_worst_move_eq env pvs _ h, hmin]
      rfl
    · intro hr
      subst hr
      rw [get_worst_move_eq env pvs _ h, hmin]
      rfl
    · intro hr
      subst hr
      rw [get_worst_move_eq env pvs _ h, hmin]
      rfl

/-- C3 witness: at the concrete two-candidate search of the spec's end-to-end
scenario, Best picks the rank-1 move and Worst picks the minimum-score move. -/
theorem move_selection_deterministic_witness :
    get_best_move c3_env = some (SearchResult.Move "1e2d")
      ∧ get_worst_move c3_env = some (SearchResult.Move "3a2b") := by
  have hsearch : search c3_env
      = some ([⟨1, 50, ["1e2d"]⟩, ⟨2, -300, ["3a2b"]⟩], SearchResult.Move "1e2d") := by
    decide
  have h := move_selection_deterministic c3_env _ _ hsearch
  constructor
  · exact h.1 ⟨1, 50, ["1e2d"]⟩ "1e2d" (by decide) rfl
  · obtain ⟨m, mv, hm, hmv, hg, _⟩ := h.2.2.1 (by decide)
    rw [show min_by_score
        (([⟨1, 50, ["1e2d"]⟩, ⟨2, -300, ["3a2b"]⟩] : List PvInfo).filter
          (fun pv => !pv.moves.isEmpty))
        = some ⟨2, -300, ["3a2b"]⟩ from by decide] at hm
    have hm' : (⟨2, -300, ["3a2b"]⟩ : PvInfo) = m := by
      injection hm
    subst hm'
    simp only [List.head?] at hmv
    have hmv' : "3a2b" = mv := by
      injection hmv
    subst hmv'
    exact hg

/-- C5: within a single `search` call, the inner `search_with_time` is
invoked a second time — with the 5-fold time budget, its result returned —
if and only if the first search terminates in resignation with an empty
candidate set; in every other case the first search's candidates and
terminal outcome are returned unchanged, and a timed-out first search
propagates as `none`. -/
theorem search_retry_policy (env : Nat → List EngineCommand) :
    (search_with_time (env SEARCH_TIME_MS) = none → search env = none)
  ∧ (∀ pvs r, search_with_time (env SEARCH_TIME_MS) = some (pvs, r) →
      ((r = SearchResult.Resign ∧ pvs = []) →
          search env = search_with_time (env (SEARCH_TIME_MS * 5)))
        ∧ (¬(r = SearchResult.Resign ∧ pvs = []) → search env = some (pvs, r))) := by
  constructor
  · intro h
    unfold search
    rw [h]
  · intro pvs r h
    constructor
    · rintro ⟨rfl, rfl⟩
      unfold search
      simp only [h]
      rfl
    · intro hn
      unfold search
      simp only [h]
      split
      · rename_i hcond
        exfalso
        apply hn
        simp only [Bool.and_eq_true] at hcond
        obtain ⟨h1, h2⟩ := hcond
        constructor
        · cases r
          · simp [is_resign] at h1
          · simp [is_resign] at h1
          · rfl
        · cases pvs with
          | nil => rfl
          | cons a as => simp [List.isEmpty] at h2
      · rfl

/-- C5 witness: a concrete resignation-with-no-candidates first search is
retried at the 5-fold budget and that result is returned; a concrete plain
first search is returned unchanged. -/
theorem search_retry_policy_witness :
    search c5_env_retry = some ([⟨1, 10, ["2c2b"]⟩], SearchResult.Move "2c2b")
      ∧ search c5_env_plain = some ([], SearchResult.Move "1e2d") := by
  constructor
  · have h := ((search_retry_policy c5_env_retry).2 [] SearchResult.Resign
      (by decide)).1 ⟨rfl, rfl⟩
    rw [h]
    decide
  · exact ((search_retry_policy c5_env_plain).2 [] (SearchResult.Move "1e2d")
      (by decide)).2 (by simp)

theorem pv_keys_cons (p : PvInfo) (l : List PvInfo) :
    pv_keys (p :: l) = p.multipv :: pv_keys l := rfl

theorem store_pv_mem (mpv sc : Int) (mvs : List String) :
    ∀ l, ∀ x ∈ store_pv mpv sc mvs l, x ∈ l ∨ x = ⟨mpv, sc, mvs⟩ := by
  intro l
  induction l with
  | nil =>
    intro x hx
    simp only [store_pv, List.mem_singleton] at hx
    exact Or.inr hx
  | cons p rest ih =>
    intro x hx
    simp only [store_pv] at hx
    by_cases hp : p.multipv = mpv
    · rw [if_pos hp] at hx
      rcases List.mem_cons.mp hx with rfl | hx
      · exact Or.inr rfl
      · exact Or.inl (List.mem_cons.mpr (Or.inr hx))
    · rw [if_neg hp] at hx
      rcases List.mem_cons.mp hx with rfl | hx
      · exact Or.inl (List.mem_cons.mpr (Or.inl rfl))
      · rcases ih x hx with h | h
        · exact Or.inl (List.mem_cons.mpr (Or.inr h))
        · exact Or.inr h

theorem store_pv_keys_mem (mpv sc : Int) (mvs : List String) :
    ∀ l, mpv ∈ pv_keys l → pv_keys (store_pv mpv sc mvs l) = pv_keys l := by
  intro l
  induction l with
  | nil =>
    intro h
    simp [pv_keys] at h
  | cons p rest ih =>
    intro h
    simp only [store_pv]
    by_cases hp : p.multipv = mpv
    · rw [if_pos hp, pv_keys_cons, pv_keys_cons, hp]
    · rw [if_neg hp, pv_keys_cons, pv_keys_cons]
      have hrest : mpv ∈ pv_keys rest := by
        rw [pv_keys_cons, List.mem_cons] at h
        rcases h with h | h
        · exact absurd h.symm hp
        · exact h
      rw [ih hrest]

theorem store_pv_not_mem (mpv sc : Int) (mvs : List String) :
    ∀ l, mpv ∉ pv_keys l → store_pv mpv sc mvs l = l ++ [⟨mpv, sc, mvs⟩] := by
  intro l
  induction l with
  | nil => intro h; rfl
  | cons p rest ih =>
    intro h
    rw [pv_keys_cons, List.mem_cons] at h
    push_neg at h
    obtain ⟨h1, h2⟩ := h
    simp only [store_pv]
    rw [if_neg (fun hc => h1 hc.symm), ih h2, List.cons_append]

theorem store_pv_overwrite (mpv sc : Int) (mvs : List String) :
    ∀ l1 (p : PvInfo) l2, p.multipv = mpv → mpv ∉ pv_keys l1 →
      store_pv mpv sc mvs (l1 ++ p :: l2) = l1 ++ ⟨mpv, sc, mvs⟩ :: l2 := by
  intro l1
  induction l1 with
  | nil =>
    intro p l2 hp _
    simp only [List.nil_append, store_pv]
    rw [if_pos hp]
  | cons q rest ih =>
    intro p l2 hp h
    rw [pv_keys_cons, List.mem_cons] at h
    push_neg at h
    obtain ⟨h1, h2⟩ := h
    simp only [List.cons_append, store_pv]
    rw [if_neg (fun hc => h1 hc.symm)]
    exact congrArg (fun t => q :: t) (ih p l2 hp h2)

theorem search_loop_invariant :
    ∀ (events : List EngineCommand) (pvs : List PvInfo) (mpv sc : Int) (mvs : List String)
      (out : List PvInfo) (r : SearchResult),
      search_loop events pvs mpv sc mvs = some (out, r) →
      (pv_keys pvs).Nodup → (∀ p ∈ pvs, p.moves ≠ []) →
      (pv_keys out).Nodup ∧ ∀ p ∈ out, p.moves ≠ [] := by
  intro events
  induction events with
  | nil =>
    intro pvs mpv sc mvs out r h
    simp [search_loop] at h
  | cons e rest ih =>
    intro pvs mpv sc mvs out r h hnd hmv
    cases e with
    | Info params =>
      simp only [search_loop] at h
      rcases hfold : params.foldl apply_info_param (mpv, sc, mvs) with ⟨mpv', sc', mvs'⟩
      rw [hfold] at h
      by_cases hemp : mvs' = []
      · rw [if_pos hemp] at h
        exact ih _ _ _ _ _ _ h hnd hmv
      · rw [if_neg hemp] at h
        refine ih _ _ _ _ _ _ h ?_ ?_
        · by_cases hk : mpv' ∈ pv_keys pvs
          · rw [store_pv_keys_mem _ _ _ _ hk]
            exact hnd
          · rw [store_pv_not_mem _ _ _ _ hk]
            rw [show pv_keys (pvs ++ [⟨mpv', sc', mvs'⟩])
              = pv_keys pvs ++ [mpv'] from by simp [pv_keys]]
            rw [List.nodup_append]
            refine ⟨hnd, List.nodup_singleton _, ?_⟩
            intro a ha hb
            rw [List.mem_singleton] at hb
            subst hb
            exact hk ha
        · intro p hp
          rcases store_pv_mem _ _ _ _ p hp with hmem | rfl
          · exact hmv p hmem
          · exact hemp
    | BestMove bm =>
      simp only [search_loop, Option.some.injEq, Prod.mk.injEq] at h
      obtain ⟨hout, hr⟩ := h
      subst hout
      exact ⟨hnd, hmv⟩
    | Other =>
      simp only [search_loop] at h
      exact ih _ _ _ _ _ _ h hnd hmv

/-- C7: throughout one search call the candidate set holds at most one entry
per rank and every stored candidate has a nonempty move sequence; an update
batch with a nonempty accumulated move sequence overwrites the candidate
with the current rank or appends a new one (latest update per rank wins),
and a batch whose accumulated move sequence is empty stores nothing. -/
theorem search_with_time_candidate_invariant (events : List EngineCommand) :
    (∀ out r, search_with_time events = some (out, r) →
        (pv_keys out).Nodup ∧ ∀ p ∈ out, p.moves ≠ [])
  ∧ (∀ (l : List PvInfo) (mpv sc : Int) (mvs : List String),
      (mpv ∉ pv_keys l → store_pv mpv sc mvs l = l ++ [⟨mpv, sc, mvs⟩])
        ∧ ∀ l1 (p : PvInfo) l2, l = l1 ++ p :: l2 → p.multipv = mpv → mpv ∉ pv_keys l1 →
            store_pv mpv sc mvs l = l1 ++ ⟨mpv, sc, mvs⟩ :: l2)
  ∧ (∀ (rest : List EngineCommand) (params : List InfoParams) (pvs : List PvInfo)
        (mpv sc mpv' sc' : Int) (mvs mvs' : List String),
      params.foldl apply_info_param (mpv, sc, mvs) = (mpv', sc', mvs') → mvs' = [] →
      search_loop (EngineCommand.Info params :: rest) pvs mpv sc mvs
        = search_loop rest pvs mpv' sc' mvs') := by
  refine ⟨?_, ?_, ?_⟩
  · intro out r h
    exact search_loop_invariant events [] 1 0 [] out r h (by simp [pv_keys]) (by simp)
  · intro l mpv sc mvs
    constructor
    · exact store_pv_not_mem mpv sc mvs l
    · intro l1 p l2 hdec hp hnm
      rw [hdec]
      exact store_pv_overwrite mpv sc mvs l1 p l2 hp hnm
  · intro rest params pvs mpv sc mpv' sc' mvs mvs' hfold hemp
    simp only [search_loop, hfold, hemp, if_pos]

/-- C7 witness: on a concrete response stream whose second rank-1 update
overwrites the first, the collected candidate set has distinct ranks and
nonempty move lists. -/
theorem search_with_time_candidate_invariant_witness :
    search_with_time c7_events = some ([⟨1, 40, ["1e2d"]⟩], SearchResult.Move "1e2d")
      ∧ (pv_keys [⟨1, 40, ["1e2d"]⟩]).Nodup
      ∧ ∀ p ∈ ([⟨1, 40, ["1e2d"]⟩] : List PvInfo), p.moves ≠ [] := by
  have h1 : search_with_time c7_events
      = some ([⟨1, 40, ["1e2d"]⟩], SearchResult.Move "1e2d") := by decide
  have h2 := (search_with_time_candidate_invariant c7_events).1 _ _ h1
  exact ⟨h1, h2.1, h2.2⟩

/-- C8: when a score update arrives, the accumulator's score is set to the
normalized value: centipawn-kind scores are stored raw, mate-distance-kind
scores become the sentinel `+10000` when positive and `-10000` when
negative. -/
theorem score_normalization (s mpv sc : Int) (mvs : List String) :
    (∀ k, apply_info_param (mpv, sc, mvs) (InfoParams.Score s k)
        = (mpv, normalize_score s k, mvs))
  ∧ normalize_score s ScoreKind.CpExact = s
  ∧ normalize_score s ScoreKind.CpLowerbound = s
  ∧ normalize_score s ScoreKind.CpUpperbound = s
  ∧ (0 < s →
      normalize_score s ScoreKind.MateExact = 10000
        ∧ normalize_score s ScoreKind.MateSignOnly = 10000
        ∧ normalize_score s ScoreKind.MateLowerbound = 10000
        ∧ normalize_score s ScoreKind.MateUpperbound = 10000)
  ∧ (s < 0 →
      normalize_score s ScoreKind.MateExact = -10000
        ∧ normalize_score s ScoreKind.MateSignOnly = -10000
        ∧ normalize_score s ScoreKind.MateLowerbound = -10000
        ∧ normalize_score s ScoreKind.MateUpperbound = -10000) := by
  refine ⟨fun k => rfl, rfl, rfl, rfl, ?_, ?_⟩
  · intro hs
    refine ⟨?_, ?_, ?_, ?_⟩ <;>
      · show (if s > 0 then (10000 : Int) else -10000) = 10000
        rw [if_pos hs]
  · intro hs
    have hns : ¬ s > 0 := by omega
    refine ⟨?_, ?_, ?_, ?_⟩ <;>
      · show (if s > 0 then (10000 : Int) else -10000) = -10000
        rw [if_neg hns]

/-- C8 witness: normalization at the concrete scores 3 and -2. -/
theorem score_normalization_witness :
    normalize_score 3 ScoreKind.MateExact = 10000
      ∧ normalize_score (-2) ScoreKind.MateUpperbound = -10000
      ∧ normalize_score 77 ScoreKind.CpExact = 77 :=
  ⟨((score_normalization 3 1 0 []).2.2.2.2.1 (by norm_num)).1,
   ((score_normalization (-2) 1 0 []).2.2.2.2.2 (by norm_num)).2.2.2,
   (score_normalization 77 1 0 []).2.1⟩

theorem generate_tsume_go_congr (sim sim' : Nat → GameResult) :
    ∀ l, (∀ a ∈ l, sim a = sim' a) →
      generate_tsume_go sim l = generate_tsume_go sim' l := by
  intro l
  induction l with
  | nil => intro _; rfl
  | cons a rest ih =>
    intro h
    simp only [generate_tsume_go]
    rw [h a (by simp)]
    cases hsa : sim' a with
    | Checkmate s => rfl
    | NoResult => exact ih (fun x hx => h x (by simp [hx]))
    | Error => exact ih (fun x hx => h x (by simp [hx]))

theorem generate_tsume_go_none (sim : Nat → GameResult) :
    ∀ l, (∀ a ∈ l, sim a = GameResult.NoResult ∨ sim a = GameResult.Error) →
      generate_tsume_go sim l = none := by
  intro l
  induction l with
  | nil => intro _; rfl
  | cons a rest ih =>
    intro h
    simp only [generate_tsume_go]
    rcases h a (by simp) with ha | ha <;>
      · rw [ha]
        exact ih (fun x hx => h x (by simp [hx]))

theorem generate_tsume_go_first (sim : Nat → GameResult) (k : Nat) (s : String)
    (hk : sim k = GameResult.Checkmate s) :
    ∀ l1 l2, (∀ a ∈ l1, ∀ s', sim a ≠ GameResult.Checkmate s') →
      generate_tsume_go sim (l1 ++ k :: l2) = some s := by
  intro l1
  induction l1 with
  | nil =>
    intro l2 _
    simp only [List.nil_append, generate_tsume_go]
    rw [hk]
  | cons a rest ih =>
    intro l2 h
    simp only [List.cons_append, generate_tsume_go]
    cases hsa : sim a with
    | Checkmate s' => exact absurd hsa (h a (by simp) s')
    | NoResult => exact ih l2 (fun x hx s' => h x (by simp [hx]) s')
    | Error => exact ih l2 (fun x hx s' => h x (by simp [hx]) s')

/-- C6: `generate_tsume` consults the simulation oracle only on the attempt
indices `1..=MAX_ATTEMPTS` (so it performs at most `MAX_ATTEMPTS = 10`
simulations), returns the position of the first attempt ending in a
checkmate terminal, and returns `none` — not a fatal error — when every
attempt yields `NoResult` or `Error`. -/
theorem generate_tsume_attempts (sim sim' : Nat → GameResult) :
    ((∀ i, 1 ≤ i → i ≤ 10 → sim i = sim' i) → generate_tsume sim = generate_tsume sim')
  ∧ ((∀ i, 1 ≤ i → i ≤ 10 → sim i = GameResult.NoResult ∨ sim i = GameResult.Error) →
      generate_tsume sim = none)
  ∧ (∀ k s, 1 ≤ k → k ≤ 10 → sim k = GameResult.Checkmate s →
      (∀ j, 1 ≤ j → j < k → ∀ s', sim j ≠ GameResult.Checkmate s') →
      generate_tsume sim = some s) := by
  have hmem : ∀ a : Nat, a ∈ List.range' 1 MAX_ATTEMPTS → 1 ≤ a ∧ a ≤ 10 := by
    intro a ha
    rw [show MAX_ATTEMPTS = 10 from rfl, List.mem_range'] at ha
    obtain ⟨i, hi, rfl⟩ := ha
    omega
  refine ⟨?_, ?_, ?_⟩
  · intro h
    unfold generate_tsume
    apply generate_tsume_go_congr
    intro a ha
    obtain ⟨h1, h2⟩ := hmem a ha
    exact h a h1 h2
  · intro h
    unfold generate_tsume
    apply generate_tsume_go_none
    intro a ha
    obtain ⟨h1, h2⟩ := hmem a ha
    exact h a h1 h2
  · intro k s hk1 hk10 hsim hbefore
    unfold generate_tsume
    have hsplit : List.range' 1 MAX_ATTEMPTS
        = List.range' 1 (k - 1) ++ k :: List.range' (k + 1) (10 - k) := by
      have happ := List.range'_append 1 (k - 1) (10 - k + 1) 1
      have e1 : 1 + 1 * (k - 1) = k := by omega
      have e2 : 10 - k + 1 + (k - 1) = 10 := by omega
      rw [e1, e2] at happ
      have hcons : List.range' k (10 - k + 1) = k :: List.range' (k + 1) (10 - k) :=
        List.range'_succ k (10 - k) 1
      rw [hcons] at happ
      rw [show MAX_ATTEMPTS = 10 from rfl, ← happ]
    rw [hsplit]
    apply generate_tsume_go_first sim k s hsim
    intro a ha s'
    rw [List.mem_range'] at ha
    obtain ⟨i, hi, rfl⟩ := ha
    exact hbefore _ (by omega) (by omega) s'

/-- C6 witness: ten failing attempts yield no puzzle; a checkmate on the
third attempt yields its position; outcomes beyond attempt 10 are never
consulted. -/
theorem generate_tsume_attempts_witness :
    generate_tsume c6_sim_fail = none
      ∧ generate_tsume c6_sim_hit = some "bkr/p1p/3/P1P/RKB w - 9"
      ∧ generate_tsume c6_sim_fail = generate_tsume c6_sim_late := by
  refine ⟨?_, ?_, ?_⟩
  · exact (generate_tsume_attempts c6_sim_fail c6_sim_fail).2.1
      (fun i _ _ => Or.inr rfl)
  · exact (generate_tsume_attempts c6_sim_hit c6_sim_hit).2.2 3 _ (by norm_num)
      (by norm_num) (by decide)
      (by
        intro j hj1 hj2 s'
        interval_cases j <;> simp [c6_sim_hit])
  · exact (generate_tsume_attempts c6_sim_fail c6_sim_late).1
      (by
        intro i h1 h2
        simp [c6_sim_fail, c6_sim_late, h2])

theorem main_loop_skip (target : Nat) (rest : List (Option String)) (count : Nat)
    (written : List String) (h : count < target) :
    main_loop target (none :: rest) count written = main_loop target rest count written := by
  rw [main_loop.eq_def, if_pos h]

theorem main_loop_complete (target : Nat) :
    ∀ (script : List (Option String)) (count : Nat) (written : List String)
      (out : List String),
      main_loop target script count written = some out → count = written.length →
      out.length = written.length + (target - count) := by
  intro script
  induction script with
  | nil =>
    intro count written out h hcw
    rw [main_loop.eq_def] at h
    split at h
    · simp at h
    · rename_i hc
      simp only [Option.some.injEq] at h
      subst h
      omega
  | cons r rest ih =>
    intro count written out h hcw
    rw [main_loop.eq_def] at h
    split at h
    · rename_i hc
      cases r with
      | some sfen =>
        have hlen := ih (count + 1) (written ++ [sfen]) out h (by simp [hcw])
        simp only [List.length_append, List.length_singleton] at hlen
        omega
      | none =>
        have hlen := ih count written out h hcw
        omega
    · rename_i hc
      simp only [Option.some.injEq] at h
      subst h
      omega

/-- C4 (amended): a slot miss (a `generate_tsume` call returning no puzzle)
is silent — no error is surfaced — but the generation loop of `main` does
not move on with fewer puzzles: it retries without incrementing the count,
so whenever the run completes it has written exactly the requested number of
puzzles; with a positive target and nothing but misses the loop simply keeps
running. -/
theorem main_loop_exact_count (target : Nat) (script : List (Option String)) :
    (∀ (rest : List (Option String)) (count : Nat) (written : List String),
        count < target →
        main_loop target (none :: rest) count written = main_loop target rest count written)
  ∧ (∀ out, main_loop target script 0 [] = some out → out.length = target)
  ∧ (0 < target → main_loop target [] 0 [] = none) := by
  refine ⟨?_, ?_, ?_⟩
  · intro rest count written h
    exact main_loop_skip target rest count written h
  · intro out h
    have hlen := main_loop_complete target script 0 [] out h rfl
    simpa using hlen
  · intro h
    rw [main_loop.eq_def, if_pos h]

/-- C4 witness: a run with one miss and then three hits, asked for three
puzzles, completes with exactly three lines written. -/
theorem main_loop_exact_count_witness :
    main_loop 3 [none, some "s1", some "s2", some "s3"] 0 [] = some ["s1", "s2", "s3"]
      ∧ (["s1", "s2", "s3"] : List String).length = 3 := by
  refine ⟨by decide, ?_⟩
  exact (main_loop_exact_count 3 [none, some "s1", some "s2", some "s3"]).2.1
    ["s1", "s2", "s3"] (by decide)

/-- C4 counterexample: with target 1 and a first-slot miss, the run does not
complete with fewer puzzles than requested: after the miss the loop keeps
going, and when it does complete it has produced exactly the requested
count, never fewer; with the miss alone the loop has not completed at all. -/
theorem main_loop_fewer_cex :
    main_loop 1 [none, some "bkr/p1p/3/P1P/RKB w - 9"] 0 []
        = some ["bkr/p1p/3/P1P/RKB w - 9"]
      ∧ ¬ (["bkr/p1p/3/P1P/RKB w - 9"] : List String).length < 1
      ∧ main_loop 1 [none] 0 [] = none := by
  refine ⟨by decide, by decide, by decide⟩

end TsumeGen
